import Mathlib

/-
Verification of the corpus-scale approximate substring search engine
(`novelty_score`): chunk building, the two fuzzy scorers, the shared-buffer
broadcast (UTF-8 publish/attach), the search coordinators and the result
aggregation driver.

Modelling conventions:
* Python strings are `List Nat` (Unicode code points); `chunk[i:j]` is
  `pySlice`.
* `rapidfuzz.fuzz.ratio` returns a float in [0, 100]; it is modelled exactly
  in `ℚ` as the normalized indel similarity `100 * 2 * lcs / (len1 + len2)`,
  and Python's banker-rounding `round` as `pyround`.
* Worker pools complete tasks in an arbitrary order; loops over
  `as_completed(...)` are modelled as folds over an explicit list given in
  completion order.
* `future.result()` re-raises worker exceptions; worker task outcomes are
  `Except String` values and the collection loops propagate errors.
-/

namespace NoveltyScore

attribute [local semireducible] Rat.mul Rat.add Rat.sub Rat.inv

/-- Configured parameters from `novelty_score/utils/constants.py`. -/
def CHUNK_SIZE : Nat := 2000000

/-- Acceptance threshold for both scorers (`FUZZ_THRESHOLD = 60`). -/
def FUZZ_THRESHOLD : ℤ := 60

/-- Sliding-window stride fraction (`STRIDE_PERCENT = 0.05`). -/
def STRIDE_PERCENT : ℚ := 5 / 100

/-- Python's `round` (round half to even, returning an int). -/
def pyround (q : ℚ) : ℤ :=
  if q - ⌊q⌋ = 1 / 2 then (if 2 ∣ ⌊q⌋ then ⌊q⌋ else ⌊q⌋ + 1) else round q

/-- Longest common subsequence computation with an explicit structural
fuel (always called with fuel at least the total length, which the fuel
lemmas show is enough). -/
def lcsF : Nat → List Nat → List Nat → Nat
  | 0, _, _ => 0
  | _ + 1, [], _ => 0
  | _ + 1, _ :: _, [] => 0
  | f + 1, a :: s, b :: t =>
    if a = b then lcsF f s t + 1
    else max (lcsF f (a :: s) t) (lcsF f s (b :: t))

/-- Longest common subsequence length, the combinatorial core of the
normalized indel similarity computed by `rapidfuzz.fuzz.ratio`. -/
def lcs (s t : List Nat) : Nat := lcsF (s.length + t.length) s t

/-- Modelled from the spec: `rapidfuzz.fuzz.ratio`, the normalized
character-overlap similarity in [0, 100] between two whole strings
(`100 * (1 - indel_distance / (len1 + len2))`, i.e.
`100 * 2 * lcs / (len1 + len2)`; `100` when both strings are empty).
The library is external to the repository, so it is modelled here in exact
rational arithmetic. -/
def fuzzSim (s t : List Nat) : ℚ :=
  if s.length + t.length = 0 then 100
  else (100 * (2 * lcs s t) : ℚ) / (s.length + t.length)

/-- Python slice `s[i:j]` (for `0 ≤ i ≤ j`). -/
def pySlice (i j : Nat) (s : List Nat) : List Nat :=
  (s.drop i).take (j - i)

/-- Window `chunk[i : i + len(test_str)]` used by the sliding-window scorer. -/
def window (test_str chunk : List Nat) (i : Nat) : List Nat :=
  (chunk.drop i).take test_str.length

/-- Stride of `slow_fuzzy_match`:
`max(int(len(test_str) * STRIDE_PERCENT), 1)`. -/
def strideOf (test_str : List Nat) : Nat :=
  max (Int.toNat ⌊(test_str.length : ℚ) * STRIDE_PERCENT⌋) 1

/-- Offsets visited by `slow_fuzzy_match`:
`range(0, len(chunk) - len(test_str), stride)` (empty when
`len(chunk) ≤ len(test_str)`, since the Python stop bound is then ≤ 0). -/
def slowIndices (test_str chunk : List Nat) : List Nat :=
  List.range' 0
    ((chunk.length - test_str.length + strideOf test_str - 1) / strideOf test_str)
    (strideOf test_str)

/-- Loop body of `slow_fuzzy_match` (state `(best_match, best_score)`;
the comparison `score > best_score` is the raw rational score against the
stored rounded integer, exactly as in the source). -/
def slowStep (test_str chunk : List Nat) (st : Option (List Nat) × ℤ)
    (i : Nat) : Option (List Nat) × ℤ :=
  if (st.2 : ℚ) < fuzzSim (window test_str chunk i) test_str then
    (some (window test_str chunk i), pyround (fuzzSim (window test_str chunk i) test_str))
  else st

/-- State `(best_match, best_score)` after the whole scan loop of
`slow_fuzzy_match`, before the final threshold test. -/
def slowLoop (test_str chunk : List Nat) : Option (List Nat) × ℤ :=
  (slowIndices test_str chunk).foldl (slowStep test_str chunk) (none, 0)

/-- Sliding-window scorer `slow_fuzzy_match` from
`novelty_score/utils/fuzzy_matching.py`. -/
def slow_fuzzy_match (test_str chunk : List Nat) : Option (List Nat) × ℤ :=
  if FUZZ_THRESHOLD ≤ (slowLoop test_str chunk).2 then slowLoop test_str chunk
  else (none, 0)

/-- All spans `(i, j)` with `0 ≤ i ≤ j ≤ n`: the candidate substrings of a
chunk of length `n` examined by the alignment scorer. -/
def allSpans (n : Nat) : List (Nat × Nat) :=
  (List.range (n + 1)).flatMap
    (fun i => (List.range (n + 1 - i)).map (fun d => (i, i + d)))

/-- Result record of `fuzz.partial_ratio_alignment` (the `src`-side fields
are unused by the repository and omitted). -/
structure ScoreAlignment where
  score : ℚ
  dest_start : Nat
  dest_end : Nat
deriving DecidableEq

/-- One candidate-span step of the best-alignment scan (first-found span
kept on ties, larger score wins). -/
def alignStep (test_str chunk : List Nat) (acc : Option ScoreAlignment)
    (p : Nat × Nat) : Option ScoreAlignment :=
  match acc with
  | none => some ⟨fuzzSim test_str (pySlice p.1 p.2 chunk), p.1, p.2⟩
  | some a =>
    if a.score < fuzzSim test_str (pySlice p.1 p.2 chunk) then
      some ⟨fuzzSim test_str (pySlice p.1 p.2 chunk), p.1, p.2⟩
    else some a

/-- Modelled from the spec: `rapidfuzz.fuzz.partial_ratio_alignment`, which
the repository imports from an external library. Per spec section 4.2 the
score is `100 × best achievable alignment ratio between query and some
substring of chunk`; the returned `dest` span is the substring attaining
that best ratio. -/
def ratio_alignment (test_str chunk : List Nat) : Option ScoreAlignment :=
  (allSpans chunk.length).foldl (alignStep test_str chunk) none

/-- Alignment scorer `fast_fuzzy_match` from
`novelty_score/utils/fuzzy_matching.py` (a `ScoreAlignment` object is always
truthy in Python, so `if score_alignment and ...` reduces to the strict
threshold test on its score). -/
def fast_fuzzy_match (test_str chunk : List Nat) : Option (List Nat) × ℤ :=
  match ratio_alignment test_str chunk with
  | some al =>
    if (FUZZ_THRESHOLD : ℚ) < al.score then
      (some (pySlice al.dest_start al.dest_end chunk), pyround al.score)
    else (none, 0)
  | none => (none, 0)

/-- Best alignment score examined by `fast_fuzzy_match`. -/
def fastBestScore (test_str chunk : List Nat) : ℚ :=
  match ratio_alignment test_str chunk with
  | some al => al.score
  | none => 0

/-- Inner loop of `create_corpus_chunks`: keep writing whole documents into
the string builder while the builder's current length is below the chunk
size (`while i < len(corpus_data) and str_builder.tell() < CHUNK_SIZE`).
Returns the finished chunk text and the remaining documents. -/
def buildOneChunk (chunkSize : Nat) : List (List Nat) → List Nat →
    List Nat × List (List Nat)
  | [], acc => (acc, [])
  | d :: ds, acc =>
    if acc.length < chunkSize then buildOneChunk chunkSize ds (acc ++ d)
    else (acc, d :: ds)

/-- Outer loop of `create_corpus_chunks`, structurally recursive on a
document-count fuel (one chunk consumes at least one document whenever
`0 < chunkSize`, so fuel `docs.length` never runs out; the builder is
always invoked that way). `produced` is `len(chunks)` so far; the guard is
`i < len(corpus_data) and (len(chunks) < max_corpus_chunks if
max_corpus_chunks else True)` (`maxChunks = 0` models the falsy
`None`/`0`, i.e. no limit); each chunk gets index
`len(chunks) + start_index`. -/
def createChunksGoF (chunkSize maxChunks startIndex : Nat) :
    Nat → List (List Nat) → Nat → List (Nat × List Nat)
  | 0, _, _ => []
  | fuel + 1, docs, produced =>
    if docs = [] then []
    else if maxChunks ≠ 0 ∧ maxChunks ≤ produced then []
    else
      (produced + startIndex, (buildOneChunk chunkSize docs []).1) ::
        createChunksGoF chunkSize maxChunks startIndex fuel
          (buildOneChunk chunkSize docs []).2 (produced + 1)

/-- Chunk builder `create_corpus_chunks` from
`novelty_score/utils/chunk_processing.py`, generalized over the chunk-size
constant (the source reads the fixed `CHUNK_SIZE`; the sibling variant
`src/fuzzy_match_main.py` passes it as the `chunk_size` parameter). -/
def create_corpus_chunks_sized (chunkSize : Nat) (corpus_data : List (List Nat))
    (max_corpus_chunks : Nat) (start_index : Nat) : List (Nat × List Nat) :=
  createChunksGoF chunkSize max_corpus_chunks start_index corpus_data.length
    corpus_data 0

/-- Chunk builder at the configured `CHUNK_SIZE`, exactly as called from
`novelty_score/fuzzy_match_main.py`. -/
def create_corpus_chunks (corpus_data : List (List Nat))
    (max_corpus_chunks : Nat) (start_index : Nat) : List (Nat × List Nat) :=
  create_corpus_chunks_sized CHUNK_SIZE corpus_data max_corpus_chunks start_index

/-- Cross-shard driver loop from `fuzzy_match_main.main`: build each
shard's chunks continuing the index from the running offset
(`start_idx += len(chunks)`). -/
def buildAllChunks (chunkSize maxChunks : Nat) :
    List (List (List Nat)) → Nat → List (Nat × List Nat)
  | [], _ => []
  | shard :: rest, start =>
    create_corpus_chunks_sized chunkSize shard maxChunks start ++
      buildAllChunks chunkSize maxChunks rest
        (start + (create_corpus_chunks_sized chunkSize shard maxChunks start).length)

/-- Per-query running result (`closest_solution`, `score`, `chunk_results`;
the `chunk_results` history is kept only in detailed mode and is `[]`
otherwise, mirroring the `None` placeholder). -/
structure BestResult where
  closest : Option (List Nat)
  score : ℤ
  history : List (Nat × Option (List Nat) × ℤ)
deriving DecidableEq

/-- Python truthiness of a match value (`if match:`): `None` and the empty
string are falsy. -/
def truthy : Option (List Nat) → Bool
  | some (_ :: _) => true
  | _ => false

/-- Detailed-mode history append (`if detailed_results: if match:
results["chunk_results"].append(...)`). -/
def appendDetailed (detailed : Bool) (st : BestResult) (idx : Nat)
    (m : Option (List Nat)) (sc : ℤ) : BestResult :=
  if detailed && truthy m then
    { st with history := st.history ++ [(idx, m, sc)] }
  else st

/-- Aggregator merge (`if score > results["score"]: results.update(...)`):
strictly greater replaces, a tie keeps the stored first-found match. -/
def mergeStep (st : BestResult) (m : Option (List Nat)) (sc : ℤ) : BestResult :=
  if st.score < sc then { st with closest := m, score := sc } else st

/-- Result-collection loop of `search_test_string_in_chunks` (lines 44-57):
elements are completed task results `(chunk_index, match, score)` in
completion order; after an update to score 100 the loop breaks. -/
def collectSingle (detailed : Bool) :
    BestResult → List (Nat × Option (List Nat) × ℤ) → BestResult
  | st, [] => st
  | st, (idx, m, sc) :: rest =>
    if (appendDetailed detailed st idx m sc).score < sc ∧ sc = 100 then
      mergeStep (appendDetailed detailed st idx m sc) m sc
    else
      collectSingle detailed (mergeStep (appendDetailed detailed st idx m sc) m sc) rest

/-- The same collection loop without the `score == 100` break. -/
def collectSingleNB (detailed : Bool) :
    BestResult → List (Nat × Option (List Nat) × ℤ) → BestResult
  | st, [] => st
  | st, (idx, m, sc) :: rest =>
    collectSingleNB detailed (mergeStep (appendDetailed detailed st idx m sc) m sc) rest

/-- Fresh per-call state (`{"closest_solution": None, "score": 0,
"chunk_results": ...}`). -/
def initBest : BestResult := ⟨none, 0, []⟩

/-- `search_test_string_in_chunks`: one scoring task per chunk
(`fast_fuzzy_match`), results collected in completion order, which is the
`completed` list's order. -/
def search_test_string_in_chunks (test_str : List Nat)
    (completed : List (Nat × List Nat)) (detailed : Bool) : BestResult :=
  collectSingle detailed initBest
    (completed.map (fun p => (p.1, fast_fuzzy_match test_str p.2)))

/-- Single-query cross-shard driver from `novelty_score/fuzzy_match_main.py`
lines 48-59: per shard, build chunks at the running offset, run the
per-shard search from a fresh state, then
`all_results[test_data].update(results)` — a dict update that replaces the
stored `closest_solution`/`score`/`chunk_results` wholesale — and break
once the shard's result has score 100. Task completion order is taken to
be chunk order. -/
def mainSingleLoop (test_str : List Nat) (numChunks : Nat) (detailed : Bool) :
    BestResult → Nat → List (List (List Nat)) → BestResult
  | st, _, [] => st
  | _, startIdx, shard :: rest =>
    if (search_test_string_in_chunks test_str
          (create_corpus_chunks shard numChunks startIdx) detailed).score = 100 then
      search_test_string_in_chunks test_str
        (create_corpus_chunks shard numChunks startIdx) detailed
    else
      mainSingleLoop test_str numChunks detailed
        (search_test_string_in_chunks test_str
          (create_corpus_chunks shard numChunks startIdx) detailed)
        (startIdx + (create_corpus_chunks shard numChunks startIdx).length) rest

/-- The same driver loop without the early-exit break. -/
def mainSingleLoopNB (test_str : List Nat) (numChunks : Nat) (detailed : Bool) :
    BestResult → Nat → List (List (List Nat)) → BestResult
  | st, _, [] => st
  | _, startIdx, shard :: rest =>
    mainSingleLoopNB test_str numChunks detailed
      (search_test_string_in_chunks test_str
        (create_corpus_chunks shard numChunks startIdx) detailed)
      (startIdx + (create_corpus_chunks shard numChunks startIdx).length) rest

/-- Whole single-query run of `fuzzy_match_main.main` over a list of
shards (each shard a list of documents). -/
def fuzzy_match_main_single (test_str : List Nat)
    (shards : List (List (List Nat))) (numChunks : Nat) (detailed : Bool) :
    BestResult :=
  mainSingleLoop test_str numChunks detailed initBest 0 shards

/-- Valid Unicode scalar value: what one character of a Python `str`
holds when the string is encodable (surrogates are rejected by
`str.encode`). -/
def IsScalar (n : Nat) : Prop := n < 1114112 ∧ ¬(55296 ≤ n ∧ n < 57344)

instance (n : Nat) : Decidable (IsScalar n) := by
  unfold IsScalar
  infer_instance

/-- UTF-8 encoding of one code point (the byte layout produced by Python's
`str.encode("utf-8")`). -/
def utf8EncodeChar (n : Nat) : List Nat :=
  if n < 128 then [n]
  else if n < 2048 then [192 + n / 64, 128 + n % 64]
  else if n < 65536 then [224 + n / 4096, 128 + n / 64 % 64, 128 + n % 64]
  else [240 + n / 262144, 128 + n / 4096 % 64, 128 + n / 64 % 64, 128 + n % 64]

/-- UTF-8 encoding of a whole string (`str.encode("utf-8")`). -/
def utf8Encode (s : List Nat) : List Nat := s.flatMap utf8EncodeChar

/-- Strict decoding of one UTF-8-encoded code point from the front of a
byte list; `none` models `UnicodeDecodeError` (bad leading byte, truncated
or malformed continuation, overlong form, surrogate, or out-of-range code
point). Returns the code point and the remaining bytes. -/
def utf8DecodeOne : List Nat → Option (Nat × List Nat)
  | [] => none
  | b :: rest =>
    if b < 128 then some (b, rest)
    else if b < 192 then none
    else if b < 224 then
      match rest with
      | b1 :: rest1 =>
        if 128 ≤ b1 ∧ b1 < 192 ∧ 128 ≤ (b - 192) * 64 + (b1 - 128) then
          some ((b - 192) * 64 + (b1 - 128), rest1)
        else none
      | [] => none
    else if b < 240 then
      match rest with
      | b1 :: b2 :: rest2 =>
        if 128 ≤ b1 ∧ b1 < 192 ∧ 128 ≤ b2 ∧ b2 < 192 ∧
            2048 ≤ (b - 224) * 4096 + (b1 - 128) * 64 + (b2 - 128) ∧
            ¬(55296 ≤ (b - 224) * 4096 + (b1 - 128) * 64 + (b2 - 128) ∧
              (b - 224) * 4096 + (b1 - 128) * 64 + (b2 - 128) < 57344) then
          some ((b - 224) * 4096 + (b1 - 128) * 64 + (b2 - 128), rest2)
        else none
      | _ => none
    else if b < 248 then
      match rest with
      | b1 :: b2 :: b3 :: rest3 =>
        if 128 ≤ b1 ∧ b1 < 192 ∧ 128 ≤ b2 ∧ b2 < 192 ∧ 128 ≤ b3 ∧ b3 < 192 ∧
            65536 ≤ (b - 240) * 262144 + (b1 - 128) * 4096 + (b2 - 128) * 64 +
              (b3 - 128) ∧
            (b - 240) * 262144 + (b1 - 128) * 4096 + (b2 - 128) * 64 +
              (b3 - 128) < 1114112 then
          some ((b - 240) * 262144 + (b1 - 128) * 4096 + (b2 - 128) * 64 +
            (b3 - 128), rest3)
        else none
      | _ => none
    else none

/-- Whole-buffer strict UTF-8 decode, with a byte-count fuel (one decoded
character consumes at least one byte, so fuel `l.length` never runs
out). -/
def utf8DecodeF : Nat → List Nat → Option (List Nat)
  | _, [] => some []
  | 0, _ :: _ => none
  | fuel + 1, b :: bs =>
    (utf8DecodeOne (b :: bs)).bind (fun p => (utf8DecodeF fuel p.2).map (p.1 :: ·))

/-- Strict UTF-8 decoding of a whole byte list (`bytes.decode("utf-8")`);
`none` models `UnicodeDecodeError`. -/
def utf8Decode (l : List Nat) : Option (List Nat) := utf8DecodeF l.length l

/-- Broadcast-buffer publish, `search_multiple_test_strings_in_chunks`
lines 75-77: the shared region is created with size exactly
`len(chunk_encoded)` and `buf[:len(chunk_encoded)]` is filled with the
encoded bytes, so the region contents are exactly the UTF-8 encoding of
the chunk text. -/
def publish (chunk : List Nat) : List Nat := utf8Encode chunk

/-- Broadcast-buffer attach, `fuzzy_match_shared_memory` lines 31-32: a
worker reads the whole region and decodes it
(`existing_shm.buf[:].tobytes().decode("utf-8")`). -/
def attach (region : List Nat) : Option (List Nat) := utf8Decode region

/-- Per-query entry of the batch-mode results dictionary. -/
structure QEntry where
  query : List Nat
  closest : Option (List Nat)
  score : ℤ
  history : List (Nat × Option (List Nat) × ℤ)
deriving DecidableEq

/-- Detailed-mode history append for one query entry
(`if detailed_results and match:`). -/
def appendQ (detailed : Bool) (e : QEntry) (idx : Nat)
    (m : Option (List Nat)) (sc : ℤ) : QEntry :=
  if detailed && truthy m then
    { e with history := e.history ++ [(idx, m, sc)] }
  else e

/-- Per-query merge in batch mode (lines 90-93:
`if score > results[test_str]["score"]: results[test_str].update(...)`). -/
def mergeQ (e : QEntry) (m : Option (List Nat)) (sc : ℤ) : QEntry :=
  if e.score < sc then { e with closest := m, score := sc } else e

/-- Apply one completed task's `(match, score)` to the entry of its query,
leaving other entries unchanged. -/
def updateEntry (idx : Nat) (detailed : Bool) (q : List Nat)
    (m : Option (List Nat)) (sc : ℤ) (e : QEntry) : QEntry :=
  if e.query = q then mergeQ (appendQ detailed e idx m sc) m sc else e

/-- Result-collection loop of `search_multiple_test_strings_in_chunks` for
one chunk (lines 83-93): iterate completed futures in completion order;
`future.result()` re-raises a worker exception, which propagates out of
the loop (there is no handler in the source), modelled by `Except.error`. -/
def collectMulti (idx : Nat) (detailed : Bool) :
    List QEntry → List (List Nat × Except String (Option (List Nat) × ℤ)) →
      Except String (List QEntry)
  | st, [] => .ok st
  | _, (_, .error e) :: _ => .error e
  | st, (q, .ok (m, sc)) :: rest =>
    collectMulti idx detailed (st.map (updateEntry idx detailed q m sc)) rest

/-- Worker body `fuzzy_match_shared_memory`: attach the shared region,
decode it and run the alignment scorer; an unreachable region or a decode
failure raises, yielding an errored task. -/
def fuzzy_match_shared_memory (test_str region : List Nat) :
    Except String (Option (List Nat) × ℤ) :=
  match attach region with
  | some chunk => .ok (fast_fuzzy_match test_str chunk)
  | none => .error "UnicodeDecodeError"

theorem pyround_intCast (n : ℤ) : pyround (n : ℚ) = n := by
  unfold pyround
  rw [Int.floor_intCast]
  simp only [sub_self]
  rw [if_neg (by norm_num), round_intCast]

theorem pyround_nonneg {q : ℚ} (h : 0 ≤ q) : 0 ≤ pyround q := by
  unfold pyround
  split
  · have h0 : (0 : ℤ) ≤ ⌊q⌋ := Int.floor_nonneg.2 h
    split <;> omega
  · rw [round_eq]
    exact Int.le_floor.2 (by linarith)

theorem pyround_le_hundred {q : ℚ} (h : q ≤ 100) : pyround q ≤ 100 := by
  unfold pyround
  split
  · rename_i hhalf
    have h1 : (⌊q⌋ : ℚ) < 100 := by linarith
    have h2 : ⌊q⌋ < 100 := by exact_mod_cast h1
    split <;> omega
  · rw [round_eq]
    calc ⌊q + 1 / 2⌋ ≤ ⌊(100 : ℚ) + 1 / 2⌋ := Int.floor_le_floor (by linarith)
    _ = 100 := by norm_num

theorem pyround_threshold {q : ℚ} (h : 60 < q) : 60 ≤ pyround q := by
  unfold pyround
  split
  · rename_i hhalf
    have h1 : (59 : ℚ) < (⌊q⌋ : ℚ) := by linarith
    have h2 : (59 : ℤ) < ⌊q⌋ := by exact_mod_cast h1
    split <;> omega
  · rw [round_eq]
    exact Int.le_floor.2 (by push_cast; linarith)

theorem lcsF_le_left : ∀ (f : Nat) (s t : List Nat), lcsF f s t ≤ s.length := by
  intro f
  induction f with
  | zero => intro s t; simp [lcsF]
  | succ f ih =>
    intro s t
    match s, t with
    | [], _ => simp [lcsF]
    | _ :: _, [] => simp [lcsF]
    | a :: s, b :: t =>
      simp only [lcsF, List.length_cons]
      split
      · have := ih s t
        omega
      · have h1 := ih (a :: s) t
        have h2 := ih s (b :: t)
        simp only [List.length_cons] at h1
        omega

theorem lcsF_le_right : ∀ (f : Nat) (s t : List Nat), lcsF f s t ≤ t.length := by
  intro f
  induction f with
  | zero => intro s t; simp [lcsF]
  | succ f ih =>
    intro s t
    match s, t with
    | [], _ => simp [lcsF]
    | _ :: _, [] => simp [lcsF]
    | a :: s, b :: t =>
      simp only [lcsF, List.length_cons]
      split
      · have := ih s t
        omega
      · have h1 := ih (a :: s) t
        have h2 := ih s (b :: t)
        simp only [List.length_cons] at h2
        omega

theorem lcsF_self : ∀ (f : Nat) (s : List Nat),
    s.length + s.length ≤ f → lcsF f s s = s.length := by
  intro f
  induction f with
  | zero =>
    intro s hf
    have : s.length = 0 := by omega
    rw [List.eq_nil_of_length_eq_zero this]
    simp [lcsF]
  | succ f ih =>
    intro s hf
    match s with
    | [] => simp [lcsF]
    | a :: s =>
      simp only [List.length_cons] at hf
      simp [lcsF]
      exact ih s (by omega)

theorem eq_of_lcsF_full : ∀ (f : Nat) (s t : List Nat),
    lcsF f s t = s.length → s.length = t.length → s = t := by
  intro f
  induction f with
  | zero =>
    intro s t h hlen
    simp [lcsF] at h
    have hs : s = [] := List.eq_nil_of_length_eq_zero h.symm
    have ht : t = [] := List.eq_nil_of_length_eq_zero (by omega)
    rw [hs, ht]
  | succ f ih =>
    intro s t h hlen
    match s, t with
    | [], _ =>
      rw [List.eq_nil_of_length_eq_zero hlen.symm]
    | _ :: _, [] =>
      simp [lcsF] at h
    | a :: s, b :: t =>
      simp only [lcsF, List.length_cons] at h hlen
      split at h
      · rename_i hab
        subst hab
        rw [ih s t (by omega) (by omega)]
      · rename_i hab
        have h1 := lcsF_le_right f (a :: s) t
        have h2 := lcsF_le_left f s (b :: t)
        omega

theorem lcs_le_left (s t : List Nat) : lcs s t ≤ s.length := lcsF_le_left _ s t

theorem lcs_le_right (s t : List Nat) : lcs s t ≤ t.length := lcsF_le_right _ s t

theorem lcs_self (s : List Nat) : lcs s s = s.length :=
  lcsF_self _ s (le_refl _)

theorem eq_of_lcs_full (s t : List Nat) :
    lcs s t = s.length → s.length = t.length → s = t :=
  eq_of_lcsF_full _ s t

theorem fuzzSim_nonneg (s t : List Nat) : 0 ≤ fuzzSim s t := by
  unfold fuzzSim
  split
  · norm_num
  · positivity

theorem fuzzSim_le_hundred (s t : List Nat) : fuzzSim s t ≤ 100 := by
  unfold fuzzSim
  split
  · exact le_refl _
  · rename_i h
    have hpos : (0 : ℚ) < (s.length : ℚ) + (t.length : ℚ) := by
      have : 0 < s.length + t.length := Nat.pos_of_ne_zero h
      exact_mod_cast this
    rw [div_le_iff hpos]
    have h1 : 2 * lcs s t ≤ s.length + t.length := by
      have := lcs_le_left s t
      have := lcs_le_right s t
      omega
    have h2 : (2 * (lcs s t) : ℚ) ≤ (s.length : ℚ) + (t.length : ℚ) := by
      exact_mod_cast h1
    nlinarith

theorem fuzzSim_self (s : List Nat) : fuzzSim s s = 100 := by
  unfold fuzzSim
  split
  · rfl
  · rename_i h
    rw [lcs_self]
    have hpos : (0 : ℚ) < (s.length : ℚ) + (s.length : ℚ) := by
      have : 0 < s.length + s.length := Nat.pos_of_ne_zero h
      exact_mod_cast this
    field_simp
    ring

theorem fuzzSim_eq_hundred_iff (s t : List Nat) : fuzzSim s t = 100 ↔ s = t := by
  constructor
  · intro h
    unfold fuzzSim at h
    split at h
    · rename_i h0
      have hs : s.length = 0 := by omega
      have ht : t.length = 0 := by omega
      rw [List.eq_nil_of_length_eq_zero hs, List.eq_nil_of_length_eq_zero ht]
    · rename_i h0
      have hpos : (0 : ℚ) < (s.length : ℚ) + (t.length : ℚ) := by
        have : 0 < s.length + t.length := Nat.pos_of_ne_zero h0
        exact_mod_cast this
      rw [div_eq_iff (ne_of_gt hpos)] at h
      have hq : (2 * (lcs s t) : ℚ) = (s.length : ℚ) + (t.length : ℚ) := by
        nlinarith
      have hn : 2 * lcs s t = s.length + t.length := by exact_mod_cast hq
      have h1 := lcs_le_left s t
      have h2 := lcs_le_right s t
      exact eq_of_lcs_full s t (by omega) (by omega)
  · intro h
    rw [h, fuzzSim_self]

/-- Invariant preservation along a left fold. -/
theorem foldl_invariant {α β : Type} (f : β → α → β) (P : β → Prop)
    (step : ∀ b a, P b → P (f b a)) :
    ∀ (l : List α) (b : β), P b → P (l.foldl f b) := by
  intro l
  induction l with
  | nil => intro b hb; exact hb
  | cons a l ih => intro b hb; exact ih (f b a) (step b a hb)

theorem slowLoop_invariant (test_str chunk : List Nat) :
    0 ≤ (slowLoop test_str chunk).2 ∧ (slowLoop test_str chunk).2 ≤ 100 ∧
      ((slowLoop test_str chunk).1 = none → (slowLoop test_str chunk).2 = 0) := by
  have h := foldl_invariant (slowStep test_str chunk)
    (fun st => 0 ≤ st.2 ∧ st.2 ≤ 100 ∧ (st.1 = none → st.2 = 0))
    (by
      intro st i hst
      unfold slowStep
      split
      · rename_i hlt
        refine ⟨pyround_nonneg (fuzzSim_nonneg _ _),
          pyround_le_hundred (fuzzSim_le_hundred _ _), ?_⟩
        intro hnone
        simp at hnone
      · exact hst)
    (slowIndices test_str chunk) (none, 0) (by simp)
  exact h

theorem slowIndices_lt_stop (test_str chunk : List Nat) :
    ∀ i ∈ slowIndices test_str chunk,
      i < chunk.length - test_str.length := by
  intro i hi
  unfold slowIndices at hi
  rw [List.mem_range'] at hi
  obtain ⟨j, hj, hij⟩ := hi
  set s := strideOf test_str with hs
  set stop := chunk.length - test_str.length with hstop
  have hs1 : 1 ≤ s := le_max_right _ 1
  have h1 : j + 1 ≤ (stop + s - 1) / s := by omega
  have h2 : (j + 1) * s ≤ ((stop + s - 1) / s) * s := Nat.mul_le_mul_right s h1
  have h3 : ((stop + s - 1) / s) * s ≤ stop + s - 1 := Nat.div_mul_le_self _ _
  have h4 : (j + 1) * s = j * s + s := by ring
  have h5 : s * j = j * s := Nat.mul_comm s j
  have hstop1 : 1 ≤ stop := by
    by_contra hc
    have hstop0 : stop = 0 := by omega
    have : (stop + s - 1) / s = 0 := by
      apply Nat.div_eq_of_lt
      omega
    omega
  omega

theorem mem_allSpans {n i j : Nat} (hij : i ≤ j) (hjn : j ≤ n) :
    (i, j) ∈ allSpans n := by
  unfold allSpans
  rw [List.mem_flatMap]
  refine ⟨i, List.mem_range.2 (by omega), ?_⟩
  rw [List.mem_map]
  exact ⟨j - i, List.mem_range.2 (by omega), by simp; omega⟩

theorem alignFold_isSome (test_str chunk : List Nat) :
    ∀ (l : List (Nat × Nat)) (acc : Option ScoreAlignment),
      (acc.isSome ∨ l ≠ []) →
      (l.foldl (alignStep test_str chunk) acc).isSome := by
  intro l
  induction l with
  | nil =>
    intro acc h
    rcases h with h | h
    · exact h
    · simp at h
  | cons p l ih =>
    intro acc _
    rw [List.foldl_cons]
    apply ih
    left
    unfold alignStep
    match acc with
    | none => simp
    | some a => simp only; split <;> simp

theorem ratio_alignment_isSome (test_str chunk : List Nat) :
    ∃ al, ratio_alignment test_str chunk = some al := by
  have h : (ratio_alignment test_str chunk).isSome := by
    apply alignFold_isSome
    right
    intro hnil
    have : (0, 0) ∈ allSpans chunk.length := mem_allSpans (le_refl 0) (Nat.zero_le _)
    rw [hnil] at this
    exact List.not_mem_nil _ this
  exact Option.isSome_iff_exists.mp h

theorem alignFold_sound (test_str chunk : List Nat) :
    ∀ al, ratio_alignment test_str chunk = some al →
      al.score = fuzzSim test_str (pySlice al.dest_start al.dest_end chunk) := by
  have h := foldl_invariant (alignStep test_str chunk)
    (fun o => ∀ a, o = some a →
      a.score = fuzzSim test_str (pySlice a.dest_start a.dest_end chunk))
    (by
      intro o p ho
      unfold alignStep
      match o with
      | none =>
        intro a ha
        simp only [Option.some.injEq] at ha
        rw [← ha]
      | some b =>
        simp only
        split
        · intro a ha
          simp only [Option.some.injEq] at ha
          rw [← ha]
        · intro a ha
          simp only [Option.some.injEq] at ha
          exact ha ▸ ho b rfl)
    (allSpans chunk.length) none (by intro a ha; cases ha)
  exact h

theorem alignFold_mono (test_str chunk : List Nat) :
    ∀ (l : List (Nat × Nat)) (b al : ScoreAlignment),
      l.foldl (alignStep test_str chunk) (some b) = some al →
      b.score ≤ al.score := by
  intro l
  induction l with
  | nil =>
    intro b al h
    simp at h
    rw [← h]
  | cons p l ih =>
    intro b al h
    rw [List.foldl_cons] at h
    unfold alignStep at h
    simp only at h
    split at h
    · rename_i hlt
      exact le_of_lt (lt_of_lt_of_le hlt (ih _ _ h))
    · exact ih _ _ h

theorem alignFold_ge (test_str chunk : List Nat) :
    ∀ (l : List (Nat × Nat)) (acc : Option ScoreAlignment) (al : ScoreAlignment),
      l.foldl (alignStep test_str chunk) acc = some al →
      ∀ p ∈ l, fuzzSim test_str (pySlice p.1 p.2 chunk) ≤ al.score := by
  intro l
  induction l with
  | nil =>
    intro acc al _ p hp
    exact absurd hp (List.not_mem_nil _)
  | cons q l ih =>
    intro acc al h p hp
    rw [List.foldl_cons] at h
    rcases List.mem_cons.1 hp with hpq | hpl
    · subst hpq
      have hstep : ∃ c : ScoreAlignment,
          alignStep test_str chunk acc p = some c ∧
          fuzzSim test_str (pySlice p.1 p.2 chunk) ≤ c.score := by
        unfold alignStep
        match acc with
        | none => exact ⟨_, rfl, le_refl _⟩
        | some b =>
          simp only
          split
          · exact ⟨_, rfl, le_refl _⟩
          · rename_i hnlt
            exact ⟨b, rfl, le_of_not_lt hnlt⟩
      obtain ⟨c, hc, hcs⟩ := hstep
      rw [hc] at h
      exact le_trans hcs (alignFold_mono test_str chunk l c al h)
    · exact ih _ _ h p hpl

theorem fastBestScore_le_hundred (test_str chunk : List Nat) :
    fastBestScore test_str chunk ≤ 100 := by
  unfold fastBestScore
  obtain ⟨al, hal⟩ := ratio_alignment_isSome test_str chunk
  rw [hal]
  simp only
  rw [alignFold_sound test_str chunk al hal]
  exact fuzzSim_le_hundred _ _

theorem slow_short (test_str chunk : List Nat)
    (h : chunk.length ≤ test_str.length) :
    slowIndices test_str chunk = [] ∧
      slow_fuzzy_match test_str chunk = (none, 0) := by
  have hs1 : 1 ≤ strideOf test_str := le_max_right _ 1
  have hstop : chunk.length - test_str.length = 0 := by omega
  have hnil : slowIndices test_str chunk = [] := by
    unfold slowIndices
    rw [hstop]
    have hz : (0 + strideOf test_str - 1) / strideOf test_str = 0 :=
      Nat.div_eq_of_lt (by omega)
    rw [hz]
    rfl
  refine ⟨hnil, ?_⟩
  have hloop : slowLoop test_str chunk = (none, 0) := by
    unfold slowLoop
    rw [hnil]
    rfl
  unfold slow_fuzzy_match
  rw [hloop]
  norm_num [FUZZ_THRESHOLD]

theorem pySlice_of_append (s q t : List Nat) :
    pySlice s.length (s.length + q.length) (s ++ q ++ t) = q := by
  unfold pySlice
  rw [List.append_assoc, List.drop_left]
  have h : s.length + q.length - s.length = q.length := by omega
  rw [h, List.take_left]

/-- Claim C10: the sliding-window scorer scans only offsets
`i < len(chunk) - len(query)`; when `len(chunk) ≤ len(query)` it performs no
window comparison and returns `(None, 0)`, even when the chunk is exactly
the query, so a verbatim occurrence at the very end of a chunk can be
missed. -/
theorem slow_scan_excludes_tail (test_str chunk : List Nat) :
    (∀ i ∈ slowIndices test_str chunk,
        (i : ℤ) < (chunk.length : ℤ) - (test_str.length : ℤ))
    ∧ (chunk.length ≤ test_str.length →
        slowIndices test_str chunk = [] ∧
          slow_fuzzy_match test_str chunk = (none, 0))
    ∧ slow_fuzzy_match chunk chunk = (none, 0) := by
  refine ⟨?_, slow_short test_str chunk, (slow_short chunk chunk (le_refl _)).2⟩
  intro i hi
  have h := slowIndices_lt_stop test_str chunk i hi
  omega

/-- Witness for `slow_scan_excludes_tail`: with query and chunk both
`"ab"` the scan is empty and the scorer misses the verbatim match. -/
theorem slow_scan_excludes_tail_witness :
    (List.length [1, 2] ≤ List.length [1, 2]) ∧
      slow_fuzzy_match [1, 2] [1, 2] = (none, 0) := by
  refine ⟨by decide, ?_⟩
  exact ((slow_scan_excludes_tail [1, 2] [1, 2]).2.1 (by decide)).2

/-- Claim C4: if a non-empty query occurs verbatim inside a chunk, the
alignment scorer returns score 100 and the matched substring is exactly
the query. -/
theorem fast_fuzzy_match_verbatim (test_str chunk : List Nat)
    (hne : test_str ≠ []) (hocc : test_str <:+: chunk) :
    fast_fuzzy_match test_str chunk = (some test_str, 100) := by
  obtain ⟨s, t, hst⟩ := hocc
  have hlen : s.length + test_str.length ≤ chunk.length := by
    rw [← hst]
    simp [List.length_append]
  have hmem : (s.length, s.length + test_str.length) ∈ allSpans chunk.length :=
    mem_allSpans (by omega) hlen
  have hslice : pySlice s.length (s.length + test_str.length) chunk = test_str := by
    rw [← hst]
    exact pySlice_of_append s test_str t
  obtain ⟨al, hal⟩ := ratio_alignment_isSome test_str chunk
  have hge := alignFold_ge test_str chunk (allSpans chunk.length) none al hal
    (s.length, s.length + test_str.length) hmem
  simp only at hge
  rw [hslice, fuzzSim_self] at hge
  have hle : al.score ≤ 100 := by
    rw [alignFold_sound test_str chunk al hal]
    exact fuzzSim_le_hundred _ _
  have heq : al.score = 100 := le_antisymm hle hge
  have hsl : fuzzSim test_str (pySlice al.dest_start al.dest_end chunk) = 100 := by
    rw [← alignFold_sound test_str chunk al hal, heq]
  have hdest : test_str = pySlice al.dest_start al.dest_end chunk :=
    (fuzzSim_eq_hundred_iff _ _).1 hsl
  unfold fast_fuzzy_match
  rw [hal]
  simp only
  rw [if_pos (by rw [heq]; norm_num [FUZZ_THRESHOLD])]
  rw [← hdest, heq]
  have h100 : pyround (100 : ℚ) = 100 := by exact_mod_cast pyround_intCast 100
  rw [h100]

/-- Witness for `fast_fuzzy_match_verbatim` at query `[1, 2]` occurring
inside chunk `[0, 1, 2, 3]`. -/
theorem fast_fuzzy_match_verbatim_witness :
    ([1, 2] : List Nat) ≠ [] ∧ ([1, 2] : List Nat) <:+: [0, 1, 2, 3] ∧
      fast_fuzzy_match [1, 2] [0, 1, 2, 3] = (some [1, 2], 100) := by
  refine ⟨by decide, ⟨[0], [3], rfl⟩, ?_⟩
  exact fast_fuzzy_match_verbatim [1, 2] [0, 1, 2, 3] (by decide) ⟨[0], [3], rfl⟩

/-- Claim C5: the alignment scorer accepts only strictly above the
threshold, the sliding-window scorer accepts at or above it; a best score
exactly equal to the threshold is accepted by the sliding-window scorer and
rejected by the alignment scorer. -/
theorem threshold_asymmetry (test_str chunk : List Nat) :
    (slow_fuzzy_match test_str chunk ≠ (none, 0) ↔
      FUZZ_THRESHOLD ≤ (slowLoop test_str chunk).2)
    ∧ (fast_fuzzy_match test_str chunk ≠ (none, 0) ↔
      (FUZZ_THRESHOLD : ℚ) < fastBestScore test_str chunk)
    ∧ ((slowLoop test_str chunk).2 = FUZZ_THRESHOLD →
      (slow_fuzzy_match test_str chunk).2 = FUZZ_THRESHOLD ∧
        (slow_fuzzy_match test_str chunk).1 ≠ none)
    ∧ (fastBestScore test_str chunk = (FUZZ_THRESHOLD : ℚ) →
      fast_fuzzy_match test_str chunk = (none, 0)) := by
  obtain ⟨al, hal⟩ := ratio_alignment_isSome test_str chunk
  have hbest : fastBestScore test_str chunk = al.score := by
    unfold fastBestScore
    rw [hal]
  have hinv := slowLoop_invariant test_str chunk
  refine ⟨?_, ?_, ?_, ?_⟩
  · constructor
    · intro hne
      by_contra hlt
      apply hne
      unfold slow_fuzzy_match
      rw [if_neg hlt]
    · intro hle hcontra
      unfold slow_fuzzy_match at hcontra
      rw [if_pos hle] at hcontra
      rw [hcontra] at hle
      norm_num [FUZZ_THRESHOLD] at hle
  · constructor
    · intro hne
      by_contra hlt
      apply hne
      unfold fast_fuzzy_match
      rw [hal]
      simp only
      rw [if_neg (by rw [hbest] at hlt; exact hlt)]
    · intro hlt hcontra
      unfold fast_fuzzy_match at hcontra
      rw [hal] at hcontra
      simp only at hcontra
      rw [hbest] at hlt
      rw [if_pos hlt] at hcontra
      exact (Option.some_ne_none _) (congrArg Prod.fst hcontra)
  · intro h60
    have hle : FUZZ_THRESHOLD ≤ (slowLoop test_str chunk).2 := le_of_eq h60.symm
    unfold slow_fuzzy_match
    rw [if_pos hle]
    refine ⟨h60, ?_⟩
    intro hnone
    have := hinv.2.2 hnone
    rw [this] at h60
    norm_num [FUZZ_THRESHOLD] at h60
  · intro h60
    unfold fast_fuzzy_match
    rw [hal]
    simp only
    rw [hbest] at h60
    rw [if_neg (by rw [h60]; exact lt_irrefl _)]

/-- Witness for `threshold_asymmetry`: the best sliding-window score over
query `[1,2,3,4,5]` and chunk `[1,2,3,9,9,7]` is exactly 60 and is
accepted; the best alignment score over query `[1,2,3,4,5,6,7]` and chunk
`[1,2,3]` is exactly 60 and is rejected. -/
theorem threshold_asymmetry_witness :
    ((slowLoop [1, 2, 3, 4, 5] [1, 2, 3, 9, 9, 7]).2 = FUZZ_THRESHOLD ∧
      (slow_fuzzy_match [1, 2, 3, 4, 5] [1, 2, 3, 9, 9, 7]).2 = FUZZ_THRESHOLD ∧
      (slow_fuzzy_match [1, 2, 3, 4, 5] [1, 2, 3, 9, 9, 7]).1 ≠ none)
    ∧ (fastBestScore [1, 2, 3, 4, 5, 6, 7] [1, 2, 3] = (FUZZ_THRESHOLD : ℚ) ∧
      fast_fuzzy_match [1, 2, 3, 4, 5, 6, 7] [1, 2, 3] = (none, 0)) := by
  have h1 : (slowLoop [1, 2, 3, 4, 5] [1, 2, 3, 9, 9, 7]).2 = FUZZ_THRESHOLD := by
    decide
  have h2 : fastBestScore [1, 2, 3, 4, 5, 6, 7] [1, 2, 3] = (FUZZ_THRESHOLD : ℚ) := by
    decide
  exact ⟨⟨h1, (threshold_asymmetry _ _).2.2.1 h1⟩,
    ⟨h2, (threshold_asymmetry _ _).2.2.2 h2⟩⟩

/-- Claim C9: both scorers return an integer score in [0, 100]; the matched
substring is `None` iff the score is 0; a best score below the configured
threshold is normalized to `(None, 0)`. -/
theorem scorer_range_invariants (test_str chunk : List Nat) :
    (0 ≤ (slow_fuzzy_match test_str chunk).2 ∧
      (slow_fuzzy_match test_str chunk).2 ≤ 100 ∧
      ((slow_fuzzy_match test_str chunk).1 = none ↔
        (slow_fuzzy_match test_str chunk).2 = 0) ∧
      ((slowLoop test_str chunk).2 < FUZZ_THRESHOLD →
        slow_fuzzy_match test_str chunk = (none, 0)))
    ∧ (0 ≤ (fast_fuzzy_match test_str chunk).2 ∧
      (fast_fuzzy_match test_str chunk).2 ≤ 100 ∧
      ((fast_fuzzy_match test_str chunk).1 = none ↔
        (fast_fuzzy_match test_str chunk).2 = 0) ∧
      (fastBestScore test_str chunk < (FUZZ_THRESHOLD : ℚ) →
        fast_fuzzy_match test_str chunk = (none, 0))) := by
  obtain ⟨al, hal⟩ := ratio_alignment_isSome test_str chunk
  have hbest : fastBestScore test_str chunk = al.score := by
    unfold fastBestScore
    rw [hal]
  have halsc : al.score = fuzzSim test_str (pySlice al.dest_start al.dest_end chunk) :=
    alignFold_sound test_str chunk al hal
  have hinv := slowLoop_invariant test_str chunk
  constructor
  · unfold slow_fuzzy_match
    split
    · rename_i hle
      refine ⟨hinv.1, hinv.2.1, ?_, ?_⟩
      · constructor
        · intro hnone
          exact hinv.2.2 hnone
        · intro h0
          rw [h0] at hle
          norm_num [FUZZ_THRESHOLD] at hle
      · intro hlt
        exact absurd hle (not_le.2 hlt)
    · rename_i hlt
      refine ⟨le_refl _, by norm_num, by simp, fun _ => rfl⟩
  · unfold fast_fuzzy_match
    rw [hal]
    simp only
    split
    · rename_i hgt
      have hpos : (0 : ℚ) ≤ al.score := by
        rw [halsc]
        exact fuzzSim_nonneg _ _
      have hle100 : al.score ≤ 100 := by
        rw [halsc]
        exact fuzzSim_le_hundred _ _
      refine ⟨pyround_nonneg hpos, pyround_le_hundred hle100, ?_, ?_⟩
      · constructor
        · intro hnone
          exact absurd hnone (Option.some_ne_none _)
        · intro h0
          have h60 : (60 : ℤ) ≤ pyround al.score := by
            apply pyround_threshold
            have : ((FUZZ_THRESHOLD : ℤ) : ℚ) = (60 : ℚ) := by
              norm_num [FUZZ_THRESHOLD]
            rw [← this]
            exact hgt
          omega
      · intro hlt
        rw [hbest] at hlt
        exact absurd hgt (not_lt.2 (le_of_lt hlt))
    · refine ⟨le_refl _, by norm_num, by simp, fun _ => rfl⟩

/-- Witness for `scorer_range_invariants` at query `[1]` and chunk
`[2, 3]`: both best scores are 0, below the threshold, and both scorers
return `(None, 0)`. -/
theorem scorer_range_invariants_witness :
    ((slowLoop [1] [2, 3]).2 < FUZZ_THRESHOLD ∧
      slow_fuzzy_match [1] [2, 3] = (none, 0))
    ∧ (fastBestScore [1] [2, 3] < (FUZZ_THRESHOLD : ℚ) ∧
      fast_fuzzy_match [1] [2, 3] = (none, 0)) := by
  have h1 : (slowLoop [1] [2, 3]).2 < FUZZ_THRESHOLD := by decide
  have h2 : fastBestScore [1] [2, 3] < (FUZZ_THRESHOLD : ℚ) := by decide
  exact ⟨⟨h1, (scorer_range_invariants [1] [2, 3]).1.2.2.2 h1⟩,
    ⟨h2, (scorer_range_invariants [1] [2, 3]).2.2.2.2 h2⟩⟩

theorem buildOneChunk_spec (chunkSize : Nat) :
    ∀ (docs : List (List Nat)) (acc : List Nat),
      ∃ g rest, docs = g ++ rest ∧
        buildOneChunk chunkSize docs acc = (acc ++ g.flatten, rest) ∧
        (acc.length < chunkSize → docs ≠ [] → g ≠ []) ∧
        (g ≠ [] → (acc ++ g.dropLast.flatten).length < chunkSize) := by
  intro docs
  induction docs with
  | nil =>
    intro acc
    refine ⟨[], [], rfl, ?_, ?_, ?_⟩
    · simp [buildOneChunk]
    · intro _ hne
      exact absurd rfl hne
    · intro hne
      exact absurd rfl hne
  | cons d ds ih =>
    intro acc
    by_cases hlt : acc.length < chunkSize
    · obtain ⟨g, rest, hsplit, heq, hne, hbound⟩ := ih (acc ++ d)
      refine ⟨d :: g, rest, by rw [hsplit]; rfl, ?_, ?_, ?_⟩
      · unfold buildOneChunk
        rw [if_pos hlt, heq]
        simp
      · intro _ _
        simp
      · intro _
        match g, hbound with
        | [], _ =>
          simp only [List.dropLast_single, List.flatten_nil, List.append_nil]
          exact hlt
        | g1 :: gs, hbound =>
          have hblast : (d :: g1 :: gs).dropLast = d :: (g1 :: gs).dropLast := rfl
          rw [hblast]
          have := hbound (by simp)
          simpa using this
    · refine ⟨[], d :: ds, rfl, ?_, ?_, ?_⟩
      · unfold buildOneChunk
        rw [if_neg hlt]
        simp
      · intro hcontra _
        exact absurd hcontra hlt
      · intro hne
        exact absurd rfl hne

theorem buildOneChunk_progress (chunkSize : Nat) (docs : List (List Nat))
    (hcs : 0 < chunkSize) (hne : docs ≠ []) :
    (buildOneChunk chunkSize docs []).2.length < docs.length := by
  obtain ⟨g, rest, hsplit, heq, hgne, _⟩ := buildOneChunk_spec chunkSize docs []
  rw [heq]
  have hg : g ≠ [] := hgne (by simpa using hcs) hne
  rw [hsplit]
  simp only [List.length_append]
  have : 0 < g.length := List.length_pos.2 hg
  omega

/-- Chunk indices produced by one run of the outer loop are consecutive,
starting at `produced + startIndex`. -/
theorem createChunksGoF_indices (chunkSize maxChunks startIndex : Nat) :
    ∀ (fuel : Nat) (docs : List (List Nat)) (produced : Nat),
      (createChunksGoF chunkSize maxChunks startIndex fuel docs produced).map
          Prod.fst =
        List.range' (produced + startIndex)
          (createChunksGoF chunkSize maxChunks startIndex fuel docs
            produced).length := by
  intro fuel
  induction fuel with
  | zero =>
    intro docs produced
    simp [createChunksGoF]
  | succ fuel ih =>
    intro docs produced
    rw [createChunksGoF]
    split
    · simp
    · split
      · simp
      · rw [List.map_cons, List.length_cons, List.range'_succ]
        rw [ih _ (produced + 1)]
        have harith : produced + 1 + startIndex = produced + startIndex + 1 := by
          omega
        rw [harith]

/-- Claim C6: every chunk is the concatenation of one or more whole
consecutive documents; the chunk texts in order reproduce the consumed
prefix of the documents (all of them when no chunk limit is set); and each
chunk minus its final document is strictly shorter than the configured
maximum, so a chunk may exceed the maximum only by its final document. -/
theorem chunks_partition_documents (chunkSize maxChunks startIndex : Nat)
    (docs : List (List Nat)) (hcs : 0 < chunkSize) :
    ∃ groups : List (List (List Nat)),
      (create_corpus_chunks_sized chunkSize docs maxChunks startIndex).map Prod.snd
        = groups.map List.flatten
      ∧ groups.flatten <+: docs
      ∧ (∀ g ∈ groups, g ≠ [])
      ∧ (∀ g ∈ groups, g.dropLast.flatten.length < chunkSize)
      ∧ (maxChunks = 0 → groups.flatten = docs) := by
  suffices H : ∀ (fuel : Nat) (ds : List (List Nat)) (produced : Nat),
      ds.length ≤ fuel →
      ∃ groups : List (List (List Nat)),
        (createChunksGoF chunkSize maxChunks startIndex fuel ds produced).map
            Prod.snd = groups.map List.flatten
        ∧ groups.flatten <+: ds
        ∧ (∀ g ∈ groups, g ≠ [])
        ∧ (∀ g ∈ groups, g.dropLast.flatten.length < chunkSize)
        ∧ (maxChunks = 0 → groups.flatten = ds) by
    exact H docs.length docs 0 (le_refl _)
  intro fuel
  induction fuel with
  | zero =>
    intro ds produced hlen
    have hnil : ds = [] := List.eq_nil_of_length_eq_zero (by omega)
    subst hnil
    refine ⟨[], ?_, ?_, ?_, ?_, ?_⟩ <;> simp [createChunksGoF]
  | succ fuel ihn =>
    intro ds produced hlen
    rw [createChunksGoF]
    split
    · rename_i hds
      subst hds
      exact ⟨[], by simp, by simp, by simp, by simp, by simp⟩
    · rename_i hds
      split
      · rename_i hmax
        refine ⟨[], by simp, ⟨ds, by simp⟩, by simp, by simp, ?_⟩
        intro h0
        exact absurd h0 (by tauto)
      · rename_i hmax
        obtain ⟨g, rest, hsplit, heq, hgne, hbound⟩ :=
          buildOneChunk_spec chunkSize ds []
        have hg : g ≠ [] := hgne (by simpa using hcs) hds
        have hrest : (buildOneChunk chunkSize ds []).2 = rest := by
          rw [heq]
        have hfst : (buildOneChunk chunkSize ds []).1 = g.flatten := by
          rw [heq]
          simp
        have hglen : 0 < g.length := List.length_pos.2 hg
        have hrestlen : rest.length ≤ fuel := by
          have : ds.length = g.length + rest.length := by
            rw [hsplit, List.length_append]
          omega
        obtain ⟨groups2, hmap2, hprefix2, hne2, hbound2, hall2⟩ :=
          ihn rest (produced + 1) hrestlen
        rw [hrest, hfst]
        refine ⟨g :: groups2, ?_, ?_, ?_, ?_, ?_⟩
        · rw [List.map_cons, List.map_cons, hmap2]
        · obtain ⟨u, hu⟩ := hprefix2
          refine ⟨u, ?_⟩
          rw [List.flatten_cons, List.append_assoc, hu, hsplit]
        · intro g2 hg2
          rcases List.mem_cons.1 hg2 with hgg | hgg
          · subst hgg
            exact hg
          · exact hne2 g2 hgg
        · intro g2 hg2
          rcases List.mem_cons.1 hg2 with hgg | hgg
          · subst hgg
            have := hbound hg
            simpa using this
          · exact hbound2 g2 hgg
        · intro h0
          rw [List.flatten_cons, hall2 h0, hsplit]

/-- Witness for `chunks_partition_documents` at chunk size 3 over four
documents. -/
theorem chunks_partition_documents_witness :
    0 < 3 ∧
      (∃ groups : List (List (List Nat)),
        (create_corpus_chunks_sized 3 [[1, 2], [3], [4, 5], [6]] 0 0).map Prod.snd
          = groups.map List.flatten
        ∧ groups.flatten <+: [[1, 2], [3], [4, 5], [6]]
        ∧ (∀ g ∈ groups, g ≠ [])
        ∧ (∀ g ∈ groups, g.dropLast.flatten.length < 3)
        ∧ ((0 : Nat) = 0 → groups.flatten = [[1, 2], [3], [4, 5], [6]])) ∧
      (create_corpus_chunks_sized 3 [[1, 2], [3], [4, 5], [6]] 0 0).map Prod.snd
        = [[1, 2, 3], [4, 5, 6]] :=
  ⟨by decide, chunks_partition_documents 3 0 0 [[1, 2], [3], [4, 5], [6]] (by decide),
    by decide⟩

theorem create_corpus_chunks_sized_indices (chunkSize maxChunks : Nat)
    (docs : List (List Nat)) (start : Nat) :
    (create_corpus_chunks_sized chunkSize docs maxChunks start).map Prod.fst =
      List.range' start
        (create_corpus_chunks_sized chunkSize docs maxChunks start).length := by
  have := createChunksGoF_indices chunkSize maxChunks start docs.length docs 0
  unfold create_corpus_chunks_sized
  rw [this]
  norm_num

theorem buildAllChunks_indices (chunkSize maxChunks : Nat) :
    ∀ (shards : List (List (List Nat))) (start : Nat),
      (buildAllChunks chunkSize maxChunks shards start).map Prod.fst =
        List.range' start (buildAllChunks chunkSize maxChunks shards start).length := by
  intro shards
  induction shards with
  | nil => intro start; simp [buildAllChunks]
  | cons shard rest ih =>
    intro start
    rw [buildAllChunks]
    rw [List.map_append, List.length_append]
    rw [create_corpus_chunks_sized_indices, ih]
    have h := List.range'_append start
      (create_corpus_chunks_sized chunkSize shard maxChunks start).length
      (buildAllChunks chunkSize maxChunks rest
        (start + (create_corpus_chunks_sized chunkSize shard maxChunks start).length)).length 1
    simp only [one_mul, Nat.mul_one] at h
    rw [Nat.add_comm
      (buildAllChunks chunkSize maxChunks rest
        (start + (create_corpus_chunks_sized chunkSize shard maxChunks start).length)).length
      (create_corpus_chunks_sized chunkSize shard maxChunks start).length] at h
    exact h

/-- Claim C7: chunk numbering continues across shards via the running
offset, so indices within one call are `start, start+1, ...` and across a
whole run starting at 0 they are exactly `0 .. n-1` with no gaps or
repeats. -/
theorem chunk_indices_contiguous (chunkSize maxChunks : Nat)
    (shards : List (List (List Nat))) (docs : List (List Nat)) (start : Nat) :
    (buildAllChunks chunkSize maxChunks shards 0).map Prod.fst =
      List.range (buildAllChunks chunkSize maxChunks shards 0).length
    ∧ (create_corpus_chunks_sized chunkSize docs maxChunks start).map Prod.fst =
      List.range' start (create_corpus_chunks_sized chunkSize docs maxChunks start).length := by
  constructor
  · rw [buildAllChunks_indices chunkSize maxChunks shards 0, List.range_eq_range']
  · exact create_corpus_chunks_sized_indices chunkSize maxChunks docs start

/-- Claim C1 (code bug): the reported best score is not monotonically
non-decreasing over the run. The per-shard search of shard 1 stores score
89 for the query, but the driver then replaces the running state with
shard 2's fresh result (score 0) via `dict.update`, so the final reported
score is 0. The sibling drivers `src/fuzzy_match_main.py` and
`src/main.py` merge with `if current > best` instead. -/
theorem cross_shard_overwrite_drops_score :
    (search_test_string_in_chunks [1, 2, 3, 4, 5]
        (create_corpus_chunks [[1, 2, 3, 4, 6]] 0 0) false).score = 89
    ∧ (fuzzy_match_main_single [1, 2, 3, 4, 5]
        [[[1, 2, 3, 4, 6]], [[7, 8]]] 0 false).score = 0 := by
  constructor
  · decide
  · decide

/-- Claim C8: once a processed chunk yields score 100, the per-shard
collection loop merges no later completion, and the cross-shard driver
runs no later shard: each loop's output equals running the break-free loop
on a prefix, and anything was cut off only after a score of 100. -/
theorem early_exit_stops_scheduling (detailed : Bool) (st : BestResult)
    (l : List (Nat × Option (List Nat) × ℤ)) (test_str : List Nat)
    (numChunks : Nat) (st2 : BestResult) (startIdx : Nat)
    (shards : List (List (List Nat))) :
    (∃ n ≤ l.length, collectSingle detailed st l = collectSingleNB detailed st (l.take n)
      ∧ (n < l.length → (collectSingle detailed st l).score = 100))
    ∧ (∃ k ≤ shards.length,
        mainSingleLoop test_str numChunks detailed st2 startIdx shards =
          mainSingleLoopNB test_str numChunks detailed st2 startIdx (shards.take k)
        ∧ (k < shards.length →
          (mainSingleLoop test_str numChunks detailed st2 startIdx shards).score = 100)) := by
  constructor
  · induction l generalizing st with
    | nil =>
      exact ⟨0, le_refl _, rfl, by intro h; exact absurd h (by simp)⟩
    | cons p rest ih =>
      obtain ⟨idx, m, sc⟩ := p
      rw [collectSingle]
      split
      · rename_i hbreak
        refine ⟨1, Nat.succ_le_succ (Nat.zero_le _), ?_, ?_⟩
        · rw [List.take_succ_cons, List.take_zero, collectSingleNB, collectSingleNB]
        · intro _
          unfold mergeStep
          rw [if_pos hbreak.1]
          exact hbreak.2
      · rename_i hnobreak
        obtain ⟨n, hn, heq, hsc⟩ :=
          ih (mergeStep (appendDetailed detailed st idx m sc) m sc)
        refine ⟨n + 1, Nat.succ_le_succ hn, ?_, ?_⟩
        · rw [List.take_succ_cons, collectSingleNB]
          exact heq
        · intro hlt
          exact hsc (Nat.lt_of_succ_lt_succ hlt)
  · induction shards generalizing st2 startIdx with
    | nil =>
      exact ⟨0, le_refl _, rfl, by intro h; exact absurd h (by simp)⟩
    | cons shard rest ih =>
      rw [mainSingleLoop]
      split
      · rename_i h100
        refine ⟨1, Nat.succ_le_succ (Nat.zero_le _), ?_, fun _ => h100⟩
        rw [List.take_succ_cons, List.take_zero, mainSingleLoopNB, mainSingleLoopNB]
      · rename_i hno
        obtain ⟨k, hk, heq, hsc⟩ := ih
          (search_test_string_in_chunks test_str
            (create_corpus_chunks shard numChunks startIdx) detailed)
          (startIdx + (create_corpus_chunks shard numChunks startIdx).length)
        refine ⟨k + 1, Nat.succ_le_succ hk, ?_, ?_⟩
        · rw [List.take_succ_cons, mainSingleLoopNB]
          exact heq
        · intro hlt
          exact hsc (Nat.lt_of_succ_lt_succ hlt)

/-- Witness for `early_exit_stops_scheduling`: query `[1]` over two
shards where the first shard contains the query verbatim; the run's output
equals the output with the second shard removed. -/
theorem early_exit_stops_scheduling_witness :
    ((∃ n ≤ ([(0, some [1], (100 : ℤ)), (1, some [9], 90)]).length,
        collectSingle false initBest [(0, some [1], 100), (1, some [9], 90)] =
          collectSingleNB false initBest
            (([(0, some [1], (100 : ℤ)), (1, some [9], 90)]).take n)
      ∧ (n < ([(0, some [1], (100 : ℤ)), (1, some [9], 90)]).length →
          (collectSingle false initBest
            [(0, some [1], 100), (1, some [9], 90)]).score = 100))
    ∧ (∃ k ≤ ([[[1]], [[2]]] : List (List (List Nat))).length,
        mainSingleLoop [1] 0 false initBest 0 [[[1]], [[2]]] =
          mainSingleLoopNB [1] 0 false initBest 0
            (([[[1]], [[2]]] : List (List (List Nat))).take k)
      ∧ (k < ([[[1]], [[2]]] : List (List (List Nat))).length →
          (mainSingleLoop [1] 0 false initBest 0 [[[1]], [[2]]]).score = 100)))
    ∧ fuzzy_match_main_single [1] [[[1]], [[2]]] 0 false =
        fuzzy_match_main_single [1] [[[1]]] 0 false :=
  ⟨early_exit_stops_scheduling false initBest
      [(0, some [1], 100), (1, some [9], 90)] [1] 0 initBest 0 [[[1]], [[2]]],
    by decide⟩

theorem utf8DecodeOne_encodeChar (n : Nat) (hval : n < 1114112)
    (hsur : ¬(55296 ≤ n ∧ n < 57344)) (tail : List Nat) :
    utf8DecodeOne (utf8EncodeChar n ++ tail) = some (n, tail) := by
  by_cases h1 : n < 128
  · have henc : utf8EncodeChar n = [n] := by
      unfold utf8EncodeChar
      rw [if_pos h1]
    rw [henc, List.cons_append, List.nil_append]
    simp only [utf8DecodeOne]
    rw [if_pos h1]
  · by_cases h2 : n < 2048
    · have henc : utf8EncodeChar n = [192 + n / 64, 128 + n % 64] := by
        unfold utf8EncodeChar
        rw [if_neg h1, if_pos h2]
      rw [henc, List.cons_append, List.cons_append, List.nil_append]
      simp only [utf8DecodeOne]
      rw [if_neg (by omega), if_neg (by omega), if_pos (by omega)]
      rw [if_pos (by refine ⟨by omega, by omega, by omega⟩)]
      have hv : (192 + n / 64 - 192) * 64 + (128 + n % 64 - 128) = n := by omega
      rw [hv]
    · by_cases h3 : n < 65536
      · have henc : utf8EncodeChar n =
            [224 + n / 4096, 128 + n / 64 % 64, 128 + n % 64] := by
          unfold utf8EncodeChar
          rw [if_neg h1, if_neg h2, if_pos h3]
        rw [henc, List.cons_append, List.cons_append, List.cons_append,
          List.nil_append]
        simp only [utf8DecodeOne]
        rw [if_neg (by omega), if_neg (by omega), if_neg (by omega),
          if_pos (by omega)]
        have hv : (224 + n / 4096 - 224) * 4096 + (128 + n / 64 % 64 - 128) * 64 +
            (128 + n % 64 - 128) = n := by omega
        rw [if_pos (by
          refine ⟨by omega, by omega, by omega, by omega, ?_, ?_⟩ <;> rw [hv]
          · omega
          · exact hsur)]
        rw [hv]
      · have henc : utf8EncodeChar n =
            [240 + n / 262144, 128 + n / 4096 % 64, 128 + n / 64 % 64,
              128 + n % 64] := by
          unfold utf8EncodeChar
          rw [if_neg h1, if_neg h2, if_neg h3]
        rw [henc, List.cons_append, List.cons_append, List.cons_append,
          List.cons_append, List.nil_append]
        simp only [utf8DecodeOne]
        rw [if_neg (by omega), if_neg (by omega), if_neg (by omega),
          if_neg (by omega), if_pos (by omega)]
        have hv : (240 + n / 262144 - 240) * 262144 +
            (128 + n / 4096 % 64 - 128) * 4096 + (128 + n / 64 % 64 - 128) * 64 +
            (128 + n % 64 - 128) = n := by omega
        rw [if_pos (by refine ⟨by omega, by omega, by omega, by omega, by omega,
          by omega, ?_, ?_⟩ <;> rw [hv] <;> omega)]
        rw [hv]

theorem utf8EncodeChar_ne_nil (n : Nat) : utf8EncodeChar n ≠ [] := by
  unfold utf8EncodeChar
  split
  · simp
  · split
    · simp
    · split <;> simp

theorem utf8DecodeF_encode : ∀ (s : List Nat) (fuel : Nat),
    (∀ c ∈ s, IsScalar c) → (utf8Encode s).length ≤ fuel →
    utf8DecodeF fuel (utf8Encode s) = some s := by
  intro s
  induction s with
  | nil =>
    intro fuel _ _
    match fuel with
    | 0 => rfl
    | _ + 1 => rfl
  | cons c cs ih =>
    intro fuel hvalid hfuel
    have hc : IsScalar c := hvalid c (List.mem_cons_self c cs)
    have henc : utf8Encode (c :: cs) = utf8EncodeChar c ++ utf8Encode cs := by
      unfold utf8Encode
      rw [List.flatMap_cons]
    have hne : utf8EncodeChar c ≠ [] := utf8EncodeChar_ne_nil c
    obtain ⟨b, bs, hb⟩ := List.exists_cons_of_ne_nil hne
    have hlen1 : 1 ≤ (utf8EncodeChar c).length := by
      rw [hb]
      simp
    rw [henc] at hfuel ⊢
    rw [List.length_append] at hfuel
    match fuel, hfuel with
    | 0, hfuel => exact absurd hfuel (by omega)
    | f + 1, hfuel =>
      rw [hb, List.cons_append, utf8DecodeF, ← List.cons_append, ← hb]
      rw [utf8DecodeOne_encodeChar c hc.1 hc.2]
      rw [Option.some_bind]
      rw [ih f (fun x hx => hvalid x (List.mem_cons_of_mem c hx)) (by omega)]
      rfl

theorem utf8_roundtrip (s : List Nat) (h : ∀ c ∈ s, IsScalar c) :
    utf8Decode (utf8Encode s) = some s :=
  utf8DecodeF_encode s (utf8Encode s).length h (le_refl _)

/-- Claim C3: publish followed by attach is the identity on chunk text —
for every (valid Unicode) chunk string, writing its UTF-8 encoding into a
region sized to the encoded length and then reading and decoding the whole
region yields exactly the published text. -/
theorem publish_attach_roundtrip (chunk : List Nat)
    (h : ∀ c ∈ chunk, IsScalar c) :
    attach (publish chunk) = some chunk :=
  utf8_roundtrip chunk h

/-- Witness for `publish_attach_roundtrip` on a chunk mixing 1-, 2-, 3-
and 4-byte characters. -/
theorem publish_attach_roundtrip_witness :
    (∀ c ∈ [104, 233, 20013, 128512], IsScalar c) ∧
      attach (publish [104, 233, 20013, 128512]) = some [104, 233, 20013, 128512] ∧
      publish [104, 233, 20013, 128512] =
        [104, 195, 169, 228, 184, 173, 240, 159, 152, 128] :=
  ⟨by decide, publish_attach_roundtrip [104, 233, 20013, 128512] (by decide),
    by decide⟩

/-- Claim C2, counterexample: a failed scoring task does not degrade to a
no-match result — collecting its result makes the whole per-chunk
collection abort with the worker's error instead of returning a completed
result set. -/
theorem worker_failure_aborts :
    collectMulti 0 false [⟨[1], none, 0, []⟩]
      [([1], Except.error "shared memory attach failed")] =
      Except.error "shared memory attach failed" := rfl

/-- Claim C2, amended: a worker-side task failure is not converted to a
no-match result; when the failed task's result is collected (after any
earlier successful results), the exception propagates out of the
collection loop and aborts the search. -/
theorem worker_failure_propagates (idx : Nat) (detailed : Bool)
    (st : List QEntry)
    (pre : List (List Nat × Except String (Option (List Nat) × ℤ)))
    (q : List Nat) (e : String)
    (post : List (List Nat × Except String (Option (List Nat) × ℤ)))
    (hpre : ∀ x ∈ pre, x.2.isOk = true) :
    collectMulti idx detailed st (pre ++ (q, Except.error e) :: post) =
      Except.error e := by
  induction pre generalizing st with
  | nil => rfl
  | cons x pre ih =>
    obtain ⟨q2, r⟩ := x
    match r, hpre (q2, r) (List.mem_cons_self _ _) with
    | .ok (m, sc), _ =>
      rw [List.cons_append, collectMulti]
      exact ih _ (fun y hy => hpre y (List.mem_cons_of_mem _ hy))

/-- Witness for `worker_failure_propagates`: one successful task followed
by a failed one aborts the collection with the failure. -/
theorem worker_failure_propagates_witness :
    (∀ x ∈ ([([2], Except.ok (none, 0))] :
        List (List Nat × Except String (Option (List Nat) × ℤ))),
      x.2.isOk = true) ∧
      collectMulti 0 false [⟨[1], none, 0, []⟩, ⟨[2], none, 0, []⟩]
        (([([2], Except.ok (none, 0))] :
            List (List Nat × Except String (Option (List Nat) × ℤ))) ++
          ([1], Except.error "shared memory attach failed") ::
            [([2], Except.ok (some [3], 70))]) =
        Except.error "shared memory attach failed" :=
  ⟨by decide, worker_failure_propagates 0 false
    [⟨[1], none, 0, []⟩, ⟨[2], none, 0, []⟩]
    [([2], Except.ok (none, 0))] [1] "shared memory attach failed"
    [([2], Except.ok (some [3], 70))] (by decide)⟩

end NoveltyScore

